import Mathlib

/-!
Verification of the AWoL-MRF relabeling engine (`src/Versions/pub_mrf2.4.py`).

The Python source is shallowly embedded below.  Dense numpy volumes are
flattened: a voxel is its linear index (`ℕ`), a per-voxel quantity is a
function out of `ℕ` or a list indexed in C order.  Label values are `ℤ`
(the sentinel for low-confidence voxels is `-1`), intensities are `ℚ`,
and the real-valued MRF energies are `ℝ`.
-/

namespace AWoLMRF

/-! ### numpy primitives

`npArgmax` is `np.argmax` on a flat list: the index of the first
occurrence of the maximum (numpy documents that ties return the first
occurrence).  `npAmax` is `np.amax`.
-/

def npArgmax {α : Type} [LinearOrder α] : List α → ℕ
  | [] => 0
  | v :: rest => if rest.all (fun w => decide (w ≤ v)) then 0 else npArgmax rest + 1

def npAmax : List ℕ → ℕ
  | [] => 0
  | v :: rest => max v (npAmax rest)

theorem exists_gt_of_not_all {α : Type} [LinearOrder α] {v : α} {rest : List α}
    (hall : ¬ rest.all (fun w => decide (w ≤ v)) = true) : ∃ w ∈ rest, v < w := by
  have h := List.all_eq_true.not.mp hall
  push_neg at h
  obtain ⟨w, hw, hnle⟩ := h
  exact ⟨w, hw, lt_of_not_le (fun hle => hnle (decide_eq_true hle))⟩

theorem npAmax_mem (l : List ℕ) (h : l ≠ []) : npAmax l ∈ l := by
  induction l with
  | nil => exact absurd rfl h
  | cons v rest ih =>
    rcases List.eq_nil_or_concat rest with hr | hr
    · subst hr; simp [npAmax]
    · have hrest : rest ≠ [] := by
        obtain ⟨L, b, hLb⟩ := hr; subst hLb; simp
      rcases le_or_lt (npAmax rest) v with hle | hlt
      · simp only [npAmax, max_eq_left hle]
        exact List.mem_cons_self v rest
      · simp only [npAmax, max_eq_right (le_of_lt hlt)]
        exact List.mem_cons_of_mem _ (ih hrest)

theorem npArgmax_lt_length {α : Type} [LinearOrder α] (l : List α) (h : l ≠ []) :
    npArgmax l < l.length := by
  induction l with
  | nil => exact absurd rfl h
  | cons v rest ih =>
    by_cases hall : rest.all (fun w => decide (w ≤ v)) = true
    · simp [npArgmax, hall]
    · have hrest : rest ≠ [] := by
        intro hr; subst hr; simp [List.all_nil] at hall
      simp only [npArgmax, hall, if_false, List.length_cons]
      exact Nat.succ_lt_succ (ih hrest)

theorem getD_npArgmax_le {α : Type} [LinearOrder α] (l : List α) (d : α) :
    ∀ i, i < l.length → l.getD i d ≤ l.getD (npArgmax l) d := by
  induction l with
  | nil => intro i hi; simp at hi
  | cons v rest ih =>
    intro i hi
    by_cases hall : rest.all (fun w => decide (w ≤ v)) = true
    · simp only [npArgmax, hall, if_true]
      match i with
      | 0 => simp [List.getD]
      | Nat.succ j =>
        have hj : j < rest.length := by simpa using hi
        have hmem : rest.getD j d ∈ rest := by
          rw [List.getD_eq_getElem rest d hj]
          exact List.getElem_mem hj
        have := List.all_eq_true.mp hall _ hmem
        simpa [List.getD] using of_decide_eq_true this
    · have hrest : rest ≠ [] := by
        intro hr; subst hr; simp [List.all_nil] at hall
      simp only [npArgmax, hall, if_false]
      obtain ⟨w, hwmem, hwv⟩ := exists_gt_of_not_all hall
      obtain ⟨j, hjlt, hjw⟩ := List.mem_iff_getElem.mp hwmem
      have hwle : w ≤ rest.getD (npArgmax rest) d := by
        have := ih j hjlt
        rwa [List.getD_eq_getElem rest d hjlt, hjw] at this
      match i with
      | 0 =>
        simpa [List.getD] using le_of_lt (lt_of_lt_of_le hwv hwle)
      | Nat.succ j' =>
        have hj' : j' < rest.length := by simpa using hi
        simpa [List.getD] using ih j' hj'

theorem getD_npArgmax_first {α : Type} [LinearOrder α] (l : List α) (d : α) :
    ∀ i, i < npArgmax l → l.getD i d < l.getD (npArgmax l) d := by
  induction l with
  | nil => intro i hi; simp [npArgmax] at hi
  | cons v rest ih =>
    intro i hi
    by_cases hall : rest.all (fun w => decide (w ≤ v)) = true
    · simp [npArgmax, hall] at hi
    · have hrest : rest ≠ [] := by
        intro hr; subst hr; simp [List.all_nil] at hall
      simp only [npArgmax, hall, if_false] at hi ⊢
      have hi' : i < npArgmax rest + 1 := by simpa using hi
      obtain ⟨w, hwmem, hwv⟩ := exists_gt_of_not_all hall
      obtain ⟨j, hjlt, hjw⟩ := List.mem_iff_getElem.mp hwmem
      have hwle : w ≤ rest.getD (npArgmax rest) d := by
        have := getD_npArgmax_le rest d j hjlt
        rwa [List.getD_eq_getElem rest d hjlt, hjw] at this
      match i with
      | 0 => simpa [List.getD] using lt_of_lt_of_le hwv hwle
      | Nat.succ j' =>
        have hj' : j' < npArgmax rest := by omega
        simpa [List.getD] using ih j' hj'

theorem le_npAmax_of_mem {a : ℕ} {l : List ℕ} (h : a ∈ l) : a ≤ npAmax l := by
  induction l with
  | nil => simp at h
  | cons v rest ih =>
    rcases List.mem_cons.mp h with h | h
    · subst h; exact le_max_left _ _
    · exact le_trans (ih h) (le_max_right _ _)

theorem getD_npArgmax_eq_npAmax (l : List ℕ) (h : l ≠ []) :
    l.getD (npArgmax l) 0 = npAmax l := by
  induction l with
  | nil => exact absurd rfl h
  | cons v rest ih =>
    by_cases hall : rest.all (fun w => decide (w ≤ v)) = true
    · simp only [npArgmax, hall, if_true, List.getD]
      have hle : npAmax rest ≤ v := by
        rcases List.eq_nil_or_concat rest with hr | hr
        · subst hr; simp [npAmax]
        · have hrest : rest ≠ [] := by
            obtain ⟨L, b, hLb⟩ := hr; subst hLb; simp
          have hmem := npAmax_mem rest hrest
          exact of_decide_eq_true (List.all_eq_true.mp hall _ hmem)
      simp [npAmax, max_eq_left hle]
    · have hrest : rest ≠ [] := by
        intro hr; subst hr; simp [List.all_nil] at hall
      obtain ⟨w, hwmem, hwv⟩ := exists_gt_of_not_all hall
      have hv : v ≤ npAmax rest := le_trans (le_of_lt hwv) (le_npAmax_of_mem hwmem)
      simp only [npArgmax, hall, if_false, List.getD, npAmax]
      rw [max_eq_right hv]
      simpa [List.getD] using ih hrest

/-! ### The minimum-energy scan of `mrf_potentials`

The Python loop is
`mrf_energy = np.inf; for value in keys: if E(value) < mrf_energy: update`.
Since every energy beats the initial infinity, the first key is always
taken, and afterwards only a strictly smaller energy replaces the
current choice.  `selGo E best rest` is the state of that loop after the
first key `best` has been taken, with `rest` still to scan.
-/

def selGo {α γ : Type} [LinearOrder γ] (E : α → γ) : α → List α → α
  | best, [] => best
  | best, k :: rest => if E k < E best then selGo E k rest else selGo E best rest

def selectLabel {α γ : Type} [LinearOrder γ] (E : α → γ) : List α → Option α
  | [] => none
  | k :: rest => some (selGo E k rest)

theorem selGo_spec {α γ : Type} [LinearOrder γ] (E : α → γ) :
    ∀ (rest : List α) (best : α),
      ∃ l1 l2, best :: rest = l1 ++ selGo E best rest :: l2 ∧
        (∀ b ∈ best :: rest, E (selGo E best rest) ≤ E b) ∧
        (∀ b ∈ l1, E (selGo E best rest) < E b) := by
  intro rest
  induction rest with
  | nil =>
    intro best
    exact ⟨[], [], rfl, by simp [selGo], by simp⟩
  | cons k rest ih =>
    intro best
    by_cases hk : E k < E best
    · obtain ⟨l1, l2, hdec, hmin, hstrict⟩ := ih k
      refine ⟨best :: l1, l2, ?_, ?_, ?_⟩
      · simp only [selGo, hk, if_true]
        rw [List.cons_append, ← hdec]
      · intro b hb
        simp only [selGo, hk, if_true]
        rcases List.mem_cons.mp hb with hb | hb
        · subst hb
          exact le_of_lt (lt_of_le_of_lt (hmin k (List.mem_cons_self k rest)) hk)
        · exact hmin b hb
      · intro b hb
        simp only [selGo, hk, if_true]
        rcases List.mem_cons.mp hb with hb | hb
        · subst hb
          exact lt_of_le_of_lt (hmin k (List.mem_cons_self k rest)) hk
        · exact hstrict b hb
    · have hbk : E best ≤ E k := le_of_not_lt hk
      obtain ⟨l1, l2, hdec, hmin, hstrict⟩ := ih best
      match l1, hdec with
      | [], hdec =>
        have hsel : selGo E best rest = best := by
          have := congrArg (fun l => l.headD best) hdec
          simpa using this.symm
        refine ⟨[], k :: rest, ?_, ?_, by simp⟩
        · simp only [selGo, hk, if_false, hsel, List.nil_append]
        · intro b hb
          simp only [selGo, hk, if_false, hsel]
          rcases List.mem_cons.mp hb with hb | hb
          · subst hb; exact le_refl _
          · rcases List.mem_cons.mp hb with hb | hb
            · subst hb; exact hbk
            · have : b ∈ best :: rest := List.mem_cons_of_mem _ hb
              simpa [hsel] using hmin b this
      | a :: l1', hdec =>
        have ha : a = best := by
          have := congrArg (fun l => l.headD best) hdec
          simpa using this.symm
        have hrest : rest = l1' ++ selGo E best rest :: l2 := by
          have := congrArg List.tail hdec
          simpa using this
        have hstrict_best : E (selGo E best rest) < E best := by
          have := hstrict a (List.mem_cons_self _ _)
          rwa [ha] at this
        refine ⟨best :: k :: l1', l2, ?_, ?_, ?_⟩
        · simp only [selGo, hk, if_false]
          rw [List.cons_append, List.cons_append, ← hrest]
        · intro b hb
          simp only [selGo, hk, if_false]
          rcases List.mem_cons.mp hb with hb | hb
          · subst hb; exact le_of_lt hstrict_best
          · rcases List.mem_cons.mp hb with hb | hb
            · subst hb
              exact le_trans (le_of_lt hstrict_best) hbk
            · exact hmin b (List.mem_cons_of_mem _ hb)
        · intro b hb
          simp only [selGo, hk, if_false]
          rcases List.mem_cons.mp hb with hb | hb
          · subst hb; exact hstrict_best
          · rcases List.mem_cons.mp hb with hb | hb
            · subst hb
              exact lt_of_lt_of_le hstrict_best hbk
            · exact hstrict b (List.mem_cons_of_mem _ hb)

theorem selectLabel_spec {α γ : Type} [LinearOrder γ] (E : α → γ) (l : List α) (h : l ≠ []) :
    ∃ a l1 l2, l = l1 ++ a :: l2 ∧ selectLabel E l = some a ∧
      (∀ b ∈ l, E a ≤ E b) ∧ (∀ b ∈ l1, E a < E b) := by
  match l, h with
  | k :: rest, _ =>
    obtain ⟨l1, l2, hdec, hmin, hstrict⟩ := selGo_spec E rest k
    exact ⟨selGo E k rest, l1, l2, hdec, rfl, hmin, hstrict⟩

/-! ### A fold over `range n` that assigns at one index only

Several numpy loops in the source have the shape
`for i, value in enumerate(label_values): labels[mask_i] = value`
where, at a fixed voxel, the masks of distinct `i` are mutually
exclusive.  Restricted to one voxel such a loop is a fold over
`range n` that overwrites the accumulator at most at one index.
-/

theorem foldl_range_ite (n i0 : ℕ) (C : ℕ → Prop) [DecidablePred C] (g : ℕ → ℤ) (init : ℤ)
    (hC : ∀ i, C i → i = i0) :
    (List.range n).foldl (fun lab i => if C i then g i else lab) init =
      if C i0 ∧ i0 < n then g i0 else init := by
  induction n with
  | zero => simp
  | succ n ihn =>
    rw [List.range_succ, List.foldl_append]
    simp only [List.foldl_cons, List.foldl_nil]
    by_cases hCn : C n
    · have hni : n = i0 := hC n hCn
      subst hni
      simp [hCn]
    · rw [if_neg hCn, ihn]
      by_cases hCi : C i0
      · have hne : i0 ≠ n := fun he => hCn (he ▸ hCi)
        have : i0 < n ↔ i0 < n + 1 := by omega
        simp [hCi, this]
      · simp [hCi]

/-! ### VoteAggregator and ConfidenceClassifier (`AWoL_MRF.__init__`, lines 58-95)

At one voxel `p` the vote tensor column is a list `votes` with one count
per entry of `label_values`.  `voteTensorVoxel` is the per-voxel
restriction of the loop that builds `votes` (lines 58-73): each
candidate image increments the count of every index holding that
image's label at `p`.

`classifyVoxel` is the per-voxel restriction of the classification loop
(lines 91-95): `n_labels = np.sum(votes != 0)` counts candidate labels,
`min_votes = (1.0/n_labels + thresholds[i])*nimg`, and index `i` is
assigned when `mode[0] == i` and (`n_labels == 1` or
`mode[1] >= min_votes`), where `mode = (argmax votes, amax votes)`.
The accumulator starts at the sentinel `-1` (line 83).
-/

def voteTensorVoxel (values : List ℤ) (imgLabels : List ℤ) : List ℕ :=
  imgLabels.foldl
    (fun votes lab => List.zipWith (fun cnt v => if v = lab then cnt + 1 else cnt) votes values)
    (List.replicate values.length 0)

def nLabels (votes : List ℕ) : ℕ := (votes.filter (fun c => decide (c ≠ 0))).length

def minVotes (n N : ℕ) (t : ℚ) : ℚ := (1 / (n : ℚ) + t) * (N : ℚ)

def classifyVoxel (values : List ℤ) (ts : List ℚ) (N : ℕ) (votes : List ℕ) : ℤ :=
  (List.range values.length).foldl
    (fun lab i =>
      if npArgmax votes = i ∧
          (nLabels votes = 1 ∨ minVotes (nLabels votes) N (ts.getD i 0) ≤ (npAmax votes : ℚ))
      then values.getD i (-1) else lab)
    (-1)

/-- `final_labels` (lines 286-298) restricted to one voxel: a voxel whose
working label is still the sentinel receives `label_values[mode[0]]` by the
masked loop of line 296-297; any other voxel keeps its working label. -/
def finalLabelsVoxel (values : List ℤ) (mode0 : ℕ) (cur : ℤ) : ℤ :=
  if cur = -1 then
    (List.range values.length).foldl (fun lab i => if mode0 = i then values.getD i (-1) else lab) cur
  else cur

theorem classifyVoxel_eq (values : List ℤ) (ts : List ℚ) (N : ℕ) (votes : List ℕ) :
    classifyVoxel values ts N votes =
      if npArgmax votes < values.length ∧
          (nLabels votes = 1 ∨
            minVotes (nLabels votes) N (ts.getD (npArgmax votes) 0) ≤ (npAmax votes : ℚ))
      then values.getD (npArgmax votes) (-1) else -1 := by
  unfold classifyVoxel
  rw [foldl_range_ite values.length (npArgmax votes)
    (fun i => npArgmax votes = i ∧
      (nLabels votes = 1 ∨ minVotes (nLabels votes) N (ts.getD i 0) ≤ (npAmax votes : ℚ)))
    (fun i => values.getD i (-1)) (-1) (fun i hi => hi.1.symm)]
  by_cases hc : nLabels votes = 1 ∨
      minVotes (nLabels votes) N (ts.getD (npArgmax votes) 0) ≤ (npAmax votes : ℚ)
  · by_cases hlt : npArgmax votes < values.length
    · rw [if_pos ⟨⟨rfl, hc⟩, hlt⟩, if_pos ⟨hlt, hc⟩]
    · rw [if_neg (fun h => hlt h.2), if_neg (fun h => hlt h.1)]
  · rw [if_neg (fun h => hc h.1.2), if_neg (fun h => hc h.2)]

theorem votes_ne_nil_of_sum_pos {votes : List ℕ} {N : ℕ} (hsum : votes.sum = N) (hN : 0 < N) :
    votes ≠ [] := by
  intro h; subst h; simp at hsum; omega

/-- C2.  With `values` the (nonnegative, hence never `-1`) distinct label
values, `N > 0` candidate volumes whose votes at the voxel sum to `N`, and
per-value thresholds `ts`: the classified voxel holds label value `k ≠ -1`
iff the mode label (`label_values[argmax votes]`) is `k` and either
`n(p) = 1` or `amax votes ≥ (1/n(p) + ts[mode]) * N`; and a voxel with
`n(p) = 1` is never low-confidence. -/
theorem C2_confidence_classification (values : List ℤ) (ts : List ℚ) (N : ℕ) (votes : List ℕ)
    (k : ℤ)
    (hval : ∀ v ∈ values, 0 ≤ v)
    (hlen : votes.length = values.length)
    (hsum : votes.sum = N) (hN : 0 < N) :
    ((classifyVoxel values ts N votes = k ∧ k ≠ -1) ↔
      (values.getD (npArgmax votes) (-1) = k ∧
        (nLabels votes = 1 ∨
          minVotes (nLabels votes) N (ts.getD (npArgmax votes) 0) ≤ (npAmax votes : ℚ)))) ∧
    (nLabels votes = 1 → classifyVoxel values ts N votes ≠ -1) := by
  have hne : votes ≠ [] := votes_ne_nil_of_sum_pos hsum hN
  have hlt : npArgmax votes < values.length := hlen ▸ npArgmax_lt_length votes hne
  have hget : values.getD (npArgmax votes) (-1) ∈ values := by
    rw [List.getD_eq_getElem values (-1) hlt]
    exact List.getElem_mem hlt
  have hpos : (0 : ℤ) ≤ values.getD (npArgmax votes) (-1) := hval _ hget
  rw [classifyVoxel_eq]
  constructor
  · constructor
    · rintro ⟨hcl, hkne⟩
      by_cases hc : nLabels votes = 1 ∨
          minVotes (nLabels votes) N (ts.getD (npArgmax votes) 0) ≤ (npAmax votes : ℚ)
      · rw [if_pos ⟨hlt, hc⟩] at hcl
        exact ⟨hcl, hc⟩
      · rw [if_neg (fun h => hc h.2)] at hcl
        exact absurd hcl.symm hkne
    · rintro ⟨hk, hc⟩
      rw [if_pos ⟨hlt, hc⟩]
      refine ⟨hk, ?_⟩
      intro hkm1
      rw [← hk] at hkm1
      omega
  · intro h1
    rw [if_pos ⟨hlt, Or.inl h1⟩]
    omega

theorem C2_confidence_classification_witness :
    ((∀ v ∈ ([1, 2] : List ℤ), 0 ≤ v) ∧
      ([2, 0] : List ℕ).length = ([1, 2] : List ℤ).length ∧
      ([2, 0] : List ℕ).sum = 2 ∧ 0 < 2) ∧
    (((classifyVoxel [1, 2] [1/5, 1/5] 2 [2, 0] = 1 ∧ (1 : ℤ) ≠ -1) ↔
      (([1, 2] : List ℤ).getD (npArgmax ([2, 0] : List ℕ)) (-1) = 1 ∧
        (nLabels [2, 0] = 1 ∨
          minVotes (nLabels [2, 0]) 2 (([1/5, 1/5] : List ℚ).getD (npArgmax ([2, 0] : List ℕ)) 0) ≤
            (npAmax [2, 0] : ℚ)))) ∧
      (nLabels [2, 0] = 1 → classifyVoxel [1, 2] [1/5, 1/5] 2 [2, 0] ≠ -1)) :=
  ⟨⟨by decide, by decide, by decide, by decide⟩,
    C2_confidence_classification [1, 2] [1/5, 1/5] 2 [2, 0] 1
      (by decide) (by decide) (by decide) (by decide)⟩

/-! ### C6: the short-circuit paths of `run`

When `find_lcv` finds no sentinel voxel, `run` (lines 107-109) returns
`self.labels` unchanged; when `find_seeds` yields an empty queue, the
`while self.seeds` loop body never runs and `final_labels` is applied to
the untouched copy `new_labels = labels`.  Both paths are modelled
voxel-wise below; a volume is the list of its vote columns.
-/

def awolNoSeedsOutput (values : List ℤ) (ts : List ℚ) (N : ℕ) (vol : List (List ℕ)) : List ℤ :=
  vol.map (fun votes => finalLabelsVoxel values (npArgmax votes) (classifyVoxel values ts N votes))

def majorityVolume (values : List ℤ) (vol : List (List ℕ)) : List ℤ :=
  vol.map (fun votes => values.getD (npArgmax votes) (-1))

theorem classifyVoxel_of_ne_sentinel (values : List ℤ) (ts : List ℚ) (N : ℕ) (votes : List ℕ)
    (hne : classifyVoxel values ts N votes ≠ -1) :
    classifyVoxel values ts N votes = values.getD (npArgmax votes) (-1) := by
  rw [classifyVoxel_eq] at hne ⊢
  by_cases hc : npArgmax votes < values.length ∧
      (nLabels votes = 1 ∨
        minVotes (nLabels votes) N (ts.getD (npArgmax votes) 0) ≤ (npAmax votes : ℚ))
  · rw [if_pos hc]
  · rw [if_neg hc] at hne
    exact absurd rfl hne

theorem finalLabelsVoxel_classify (values : List ℤ) (ts : List ℚ) (N : ℕ) (votes : List ℕ)
    (hlen : votes.length = values.length)
    (hsum : votes.sum = N) (hN : 0 < N) :
    finalLabelsVoxel values (npArgmax votes) (classifyVoxel values ts N votes) =
      values.getD (npArgmax votes) (-1) := by
  have hne : votes ≠ [] := votes_ne_nil_of_sum_pos hsum hN
  have hlt : npArgmax votes < values.length := hlen ▸ npArgmax_lt_length votes hne
  by_cases hcl : classifyVoxel values ts N votes = -1
  · unfold finalLabelsVoxel
    rw [if_pos hcl, hcl]
    rw [foldl_range_ite values.length (npArgmax votes) (fun i => npArgmax votes = i)
      (fun i => values.getD i (-1)) (-1) (fun i hi => hi.symm)]
    rw [if_pos ⟨rfl, hlt⟩]
  · unfold finalLabelsVoxel
    rw [if_neg hcl]
    exact classifyVoxel_of_ne_sentinel values ts N votes hcl

/-- C6.  If no voxel is low-confidence, or no low-confidence voxel becomes a
seed, no relabeling occurs and the output volume is exactly the
majority-vote volume: the seedless run (classification followed directly by
`final_labels`) equals `majority_volume`, and on a volume with no sentinel
voxel the classified volume itself already equals `majority_volume`. -/
theorem C6_short_circuit_majority (values : List ℤ) (ts : List ℚ) (N : ℕ) (vol : List (List ℕ))
    (hlen : ∀ votes ∈ vol, votes.length = values.length)
    (hsum : ∀ votes ∈ vol, votes.sum = N) (hN : 0 < N) :
    awolNoSeedsOutput values ts N vol = majorityVolume values vol ∧
    ((∀ votes ∈ vol, classifyVoxel values ts N votes ≠ -1) →
      vol.map (fun votes => classifyVoxel values ts N votes) = majorityVolume values vol) := by
  constructor
  · apply List.map_congr_left
    intro votes hv
    exact finalLabelsVoxel_classify values ts N votes (hlen votes hv) (hsum votes hv) hN
  · intro hnolcv
    apply List.map_congr_left
    intro votes hv
    exact classifyVoxel_of_ne_sentinel values ts N votes (hnolcv votes hv)

theorem C6_short_circuit_majority_witness :
    ((∀ votes ∈ ([[2, 0], [0, 2]] : List (List ℕ)), votes.length = ([1, 2] : List ℤ).length) ∧
      (∀ votes ∈ ([[2, 0], [0, 2]] : List (List ℕ)), votes.sum = 2) ∧ 0 < 2) ∧
    (awolNoSeedsOutput [1, 2] [1/5, 1/5] 2 [[2, 0], [0, 2]] =
        majorityVolume [1, 2] [[2, 0], [0, 2]] ∧
      ((∀ votes ∈ ([[2, 0], [0, 2]] : List (List ℕ)),
          classifyVoxel [1, 2] [1/5, 1/5] 2 votes ≠ -1) →
        ([[2, 0], [0, 2]] : List (List ℕ)).map
            (fun votes => classifyVoxel [1, 2] [1/5, 1/5] 2 votes) =
          majorityVolume [1, 2] [[2, 0], [0, 2]])) :=
  ⟨⟨by decide, by decide, by decide⟩,
    C6_short_circuit_majority [1, 2] [1/5, 1/5] 2 [[2, 0], [0, 2]]
      (by decide) (by decide) (by decide)⟩

/-! ### C7: vote-tensor column sums (lines 58-73) -/

theorem zipWith_vote_sum (lab : ℤ) :
    ∀ (values : List ℤ) (votes : List ℕ), votes.length = values.length →
      ((List.zipWith (fun cnt v => if v = lab then cnt + 1 else cnt) votes values).sum =
          votes.sum + values.count lab ∧
        (List.zipWith (fun cnt v => if v = lab then cnt + 1 else cnt) votes values).length =
          values.length) := by
  intro values
  induction values with
  | nil =>
    intro votes hlen
    have hv : votes = [] := List.eq_nil_of_length_eq_zero (by simpa using hlen)
    subst hv
    simp
  | cons v vs ih =>
    intro votes hlen
    match votes with
    | [] => simp at hlen
    | c :: cs =>
      have hlen' : cs.length = vs.length := by simpa using hlen
      obtain ⟨ihsum, ihlen⟩ := ih cs hlen'
      constructor
      · by_cases hv : v = lab
        · simp only [List.zipWith_cons_cons, hv, if_pos rfl, List.sum_cons, ihsum,
            List.count_cons]
          simp [hv]
          omega
        · simp only [List.zipWith_cons_cons, if_neg hv, List.sum_cons, ihsum, List.count_cons]
          simp [hv]
          omega
      · simpa using ihlen

/-- C7.  For every voxel, the vote-tensor column built by the constructor
loop sums to the number `N` of candidate label volumes, provided the
distinct label values are pairwise distinct (as `np.unique` guarantees)
and every image's label at the voxel is among them (as the label-set check
of lines 69-70 guarantees). -/
theorem C7_vote_tensor_column_sum (values : List ℤ) (imgLabels : List ℤ)
    (hnd : values.Nodup) (hmem : ∀ lab ∈ imgLabels, lab ∈ values) :
    (voteTensorVoxel values imgLabels).sum = imgLabels.length := by
  unfold voteTensorVoxel
  have h : ∀ (imgs : List ℤ), (∀ lab ∈ imgs, lab ∈ values) →
      ∀ (acc : List ℕ), acc.length = values.length →
      ((imgs.foldl
        (fun votes lab => List.zipWith (fun cnt v => if v = lab then cnt + 1 else cnt) votes values)
        acc).sum = acc.sum + imgs.length ∧
      (imgs.foldl
        (fun votes lab => List.zipWith (fun cnt v => if v = lab then cnt + 1 else cnt) votes values)
        acc).length = values.length) := by
    intro imgs
    induction imgs with
    | nil =>
      intro _ acc hacc
      exact ⟨by simp, by simpa using hacc⟩
    | cons lab rest ih =>
      intro hm acc hacc
      have hlab : lab ∈ values := hm lab (List.mem_cons_self _ _)
      obtain ⟨hs, hl⟩ := zipWith_vote_sum lab values acc hacc
      have hcount : values.count lab = 1 := List.count_eq_one_of_mem hnd hlab
      obtain ⟨ihs, ihl⟩ :=
        ih (fun l hl' => hm l (List.mem_cons_of_mem _ hl')) _ hl
      refine ⟨?_, by simpa using ihl⟩
      rw [List.foldl_cons, ihs, hs, hcount]
      simp
      omega
  have := (h imgLabels hmem (List.replicate values.length 0) (by simp)).1
  simpa using this

theorem C7_vote_tensor_column_sum_witness :
    (([1, 2] : List ℤ).Nodup ∧ (∀ lab ∈ ([1, 2, 2] : List ℤ), lab ∈ ([1, 2] : List ℤ))) ∧
    (voteTensorVoxel [1, 2] [1, 2, 2]).sum = ([1, 2, 2] : List ℤ).length :=
  ⟨⟨by decide, by decide⟩,
    C7_vote_tensor_column_sum [1, 2] [1, 2, 2] (by decide) (by decide)⟩

/-! ### C4: the per-voxel label tally of `mrf_potentials` (lines 280-282)

`label_count[lcv][np.where(label_values == new_label)[0][0]] += 1`
followed by
`nlflat[lcv] = label_values[np.argmax(label_count[lcv])]`.
-/

def tallyUpdate (values : List ℤ) (counts : List ℕ) (v : ℤ) : List ℕ :=
  counts.set (values.indexOf v) (counts.getD (values.indexOf v) 0 + 1)

def workingLabel (values : List ℤ) (counts : List ℕ) : ℤ :=
  values.getD (npArgmax counts) (-1)

/-- C4 counterexample.  With `label_values = [1, 2]`, vote label `1` and then
label `2`: the tallies tie at `[1, 1]`, the most-recently-incremented label
is `2`, yet the working label computed by the code is `1` (`np.argmax`
returns the first maximal index, not the most recent one). -/
theorem C4_tie_break_counterexample :
    tallyUpdate [1, 2] (tallyUpdate [1, 2] [0, 0] 1) 2 = [1, 1] ∧
    workingLabel [1, 2] (tallyUpdate [1, 2] (tallyUpdate [1, 2] [0, 0] 1) 2) = 1 ∧
    ((1 : ℤ) ≠ 2) := by decide

/-- C4 (amended).  After every tally increment, the voxel's working label is
a label whose tally is maximal, and among tied maximal tallies it is the
one occurring first in `label_values` enumeration order (smallest index),
not the most-recently-incremented one. -/
theorem C4_working_label_amended (values : List ℤ) (counts : List ℕ) (v : ℤ)
    (hlen : counts.length = values.length) (hne : counts ≠ []) :
    ∃ j, j < values.length ∧
      workingLabel values (tallyUpdate values counts v) = values.getD j (-1) ∧
      (∀ i, i < (tallyUpdate values counts v).length →
        (tallyUpdate values counts v).getD i 0 ≤ (tallyUpdate values counts v).getD j 0) ∧
      (∀ i, i < j → (tallyUpdate values counts v).getD i 0 < (tallyUpdate values counts v).getD j 0) := by
  set counts' := tallyUpdate values counts v with hc'
  have hlen' : counts'.length = counts.length := by
    rw [hc']; unfold tallyUpdate; exact List.length_set counts _ _
  have hne' : counts' ≠ [] := by
    intro h
    apply hne
    have := congrArg List.length h
    rw [hlen'] at this
    exact List.eq_nil_of_length_eq_zero this
  refine ⟨npArgmax counts', ?_, rfl, ?_, ?_⟩
  · rw [← hlen, ← hlen']
    exact npArgmax_lt_length counts' hne'
  · exact fun i hi => getD_npArgmax_le counts' 0 i hi
  · exact fun i hi => getD_npArgmax_first counts' 0 i hi

theorem C4_working_label_amended_witness :
    (([0, 0] : List ℕ).length = ([1, 2] : List ℤ).length ∧ ([0, 0] : List ℕ) ≠ []) ∧
    (∃ j, j < ([1, 2] : List ℤ).length ∧
      workingLabel [1, 2] (tallyUpdate [1, 2] [0, 0] 1) = ([1, 2] : List ℤ).getD j (-1) ∧
      (∀ i, i < (tallyUpdate [1, 2] [0, 0] 1).length →
        (tallyUpdate [1, 2] [0, 0] 1).getD i 0 ≤ (tallyUpdate [1, 2] [0, 0] 1).getD j 0) ∧
      (∀ i, i < j → (tallyUpdate [1, 2] [0, 0] 1).getD i 0 < (tallyUpdate [1, 2] [0, 0] 1).getD j 0)) :=
  ⟨⟨by decide, by decide⟩,
    C4_working_label_amended [1, 2] [0, 0] 1 (by decide) (by decide)⟩

/-! ### C5: `find_seeds` (lines 161-187)

A low-confidence voxel `p` qualifies as a seed when
`n_hcv = sum(lflat[neighbors_big[p]] != -1)` strictly exceeds the mixing
ratio; the queue is `[seed for (c, seed) in sorted(zip(confidence_level,
seeds))][::-1]`: ascending lexicographic sort on the `(count, voxel)`
pairs followed by a full reversal.
-/

def nHcv (labels : ℕ → ℤ) (nbig : ℕ → List ℕ) (p : ℕ) : ℕ :=
  ((nbig p).filter (fun q => decide (labels q ≠ -1))).length

def seedPairLe : ℕ × ℕ → ℕ × ℕ → Prop :=
  fun a b => a.1 < b.1 ∨ (a.1 = b.1 ∧ a.2 ≤ b.2)

instance : DecidableRel seedPairLe := fun a b => by unfold seedPairLe; infer_instance

instance : IsTotal (ℕ × ℕ) seedPairLe := by
  constructor
  intro a b
  unfold seedPairLe
  rcases lt_trichotomy a.1 b.1 with h | h | h
  · exact Or.inl (Or.inl h)
  · rcases le_total a.2 b.2 with h2 | h2
    · exact Or.inl (Or.inr ⟨h, h2⟩)
    · exact Or.inr (Or.inr ⟨h.symm, h2⟩)
  · exact Or.inr (Or.inl h)

instance : IsTrans (ℕ × ℕ) seedPairLe := by
  constructor
  intro a b c hab hbc
  unfold seedPairLe at *
  rcases hab with h | ⟨he, h2⟩ <;> rcases hbc with h' | ⟨he', h2'⟩
  · exact Or.inl (lt_trans h h')
  · exact Or.inl (he' ▸ h)
  · exact Or.inl (he ▸ h')
  · exact Or.inr ⟨he.trans he', le_trans h2 h2'⟩

def findSeeds (labels : ℕ → ℤ) (nbig : ℕ → List ℕ) (mixing : ℕ) (lcv : List ℕ) : List ℕ :=
  let qualified := lcv.filter (fun p => decide (mixing < nHcv labels nbig p))
  let pairs := qualified.map (fun p => (nHcv labels nbig p, p))
  ((List.insertionSort seedPairLe pairs).reverse).map Prod.snd

/-- What the claim describes: a stable sort of the qualified voxels by
descending count, ties kept in discovery order.  (Insertion sort with a
total preorder on the count alone is such a stable sort.) -/
def claimedDescLe (labels : ℕ → ℤ) (nbig : ℕ → List ℕ) : ℕ → ℕ → Prop :=
  fun a b => nHcv labels nbig b ≤ nHcv labels nbig a

instance (labels : ℕ → ℤ) (nbig : ℕ → List ℕ) : DecidableRel (claimedDescLe labels nbig) :=
  fun a b => by unfold claimedDescLe; infer_instance

def claimedSeedOrder (labels : ℕ → ℤ) (nbig : ℕ → List ℕ) (mixing : ℕ) (lcv : List ℕ) :
    List ℕ :=
  List.insertionSort (claimedDescLe labels nbig)
    (lcv.filter (fun p => decide (mixing < nHcv labels nbig p)))

def C5exLabels : ℕ → ℤ := fun q => if q < 2 then 1 else -1

def C5exNbig : ℕ → List ℕ := fun p => if p = 2 ∨ p = 3 then [0, 1] else []

/-- C5 counterexample.  Voxels `2` and `3` both count `2 > 1` resolved
extended neighbors; discovery order is `[2, 3]`, so the claim requires the
queue `[2, 3]`; the code's ascending sort followed by reversal yields
`[3, 2]`: equal-count seeds appear in reverse discovery order. -/
theorem C5_tie_order_counterexample :
    findSeeds C5exLabels C5exNbig 1 [2, 3] = [3, 2] ∧
    claimedSeedOrder C5exLabels C5exNbig 1 [2, 3] = [2, 3] ∧
    nHcv C5exLabels C5exNbig 2 = nHcv C5exLabels C5exNbig 3 ∧
    ([3, 2] : List ℕ) ≠ [2, 3] := by decide

/-- C5 (amended).  The seed queue contains exactly the low-confidence voxels
whose resolved extended-neighborhood count strictly exceeds the mixing
ratio (a permutation of the qualified sublist), ordered by descending
count; equal-count seeds appear in descending voxel-index order, i.e. in
the reverse of discovery order. -/
theorem C5_seed_queue_amended (labels : ℕ → ℤ) (nbig : ℕ → List ℕ) (mixing : ℕ) (lcv : List ℕ)
    (hnd : lcv.Nodup) :
    (findSeeds labels nbig mixing lcv).Perm
        (lcv.filter (fun p => decide (mixing < nHcv labels nbig p))) ∧
    List.Chain' (fun a b => nHcv labels nbig b < nHcv labels nbig a ∨
        (nHcv labels nbig a = nHcv labels nbig b ∧ b < a)) (findSeeds labels nbig mixing lcv) := by
  set f : ℕ → ℕ := nHcv labels nbig with hf
  set qualified := lcv.filter (fun p => decide (mixing < f p)) with hqual
  set pairs := qualified.map (fun p => (f p, p)) with hpairs
  have hmapsnd : pairs.map Prod.snd = qualified := by
    rw [hpairs, List.map_map]
    exact List.map_id qualified
  have hperm_pairs : (List.insertionSort seedPairLe pairs).reverse.Perm pairs :=
    (List.reverse_perm _).trans (List.perm_insertionSort seedPairLe pairs)
  constructor
  · have : ((List.insertionSort seedPairLe pairs).reverse.map Prod.snd).Perm
        (pairs.map Prod.snd) := hperm_pairs.map Prod.snd
    rw [hmapsnd] at this
    exact this
  · -- sortedness of the reversed sort, with strictness from nodup
    have hsorted : List.Pairwise seedPairLe (List.insertionSort seedPairLe pairs) :=
      List.sorted_insertionSort seedPairLe pairs
    have hrev : List.Pairwise (fun a b => seedPairLe b a)
        (List.insertionSort seedPairLe pairs).reverse := by
      rw [List.pairwise_reverse]
      exact hsorted
    have hnd_pairs : pairs.Nodup := by
      rw [hpairs]
      exact (hnd.filter _).map (fun p q hpq => congrArg Prod.snd hpq)
    have hnd_rev : (List.insertionSort seedPairLe pairs).reverse.Nodup :=
      (List.Perm.nodup_iff hperm_pairs).mpr hnd_pairs
    have hne_rev : List.Pairwise (fun a b : ℕ × ℕ => a ≠ b)
        (List.insertionSort seedPairLe pairs).reverse := hnd_rev
    have hboth := hrev.and hne_rev
    have hmem_shape : ∀ a : ℕ × ℕ, a ∈ (List.insertionSort seedPairLe pairs).reverse →
        a.1 = f a.2 := by
      intro a ha
      have : a ∈ pairs := hperm_pairs.mem_iff.mp ha
      rw [hpairs] at this
      obtain ⟨p, _, hp⟩ := List.mem_map.mp this
      rw [← hp]
    have htarget : List.Pairwise
        (fun a b : ℕ × ℕ => f b.2 < f a.2 ∨ (f a.2 = f b.2 ∧ b.2 < a.2))
        (List.insertionSort seedPairLe pairs).reverse := by
      refine hboth.imp_of_mem ?_
      intro a b ha hb hab
      obtain ⟨hle, hne⟩ := hab
      unfold seedPairLe at hle
      rw [hmem_shape a ha, hmem_shape b hb] at hle
      rcases hle with h | ⟨he, h2⟩
      · exact Or.inl h
      · rcases lt_or_eq_of_le h2 with h2 | h2
        · exact Or.inr ⟨he.symm, h2⟩
        · exfalso
          apply hne
          have h1 : a.1 = b.1 := by rw [hmem_shape a ha, hmem_shape b hb, he]
          exact Prod.ext h1 h2.symm
    have hmapped : List.Pairwise (fun a b : ℕ => f b < f a ∨ (f a = f b ∧ b < a))
        ((List.insertionSort seedPairLe pairs).reverse.map Prod.snd) := by
      rw [List.pairwise_map]
      exact htarget
    exact hmapped.chain'

theorem C5_seed_queue_amended_witness :
    ([2, 3] : List ℕ).Nodup ∧
    ((findSeeds C5exLabels C5exNbig 1 [2, 3]).Perm
        (([2, 3] : List ℕ).filter (fun p => decide (1 < nHcv C5exLabels C5exNbig p))) ∧
      List.Chain' (fun a b => nHcv C5exLabels C5exNbig b < nHcv C5exLabels C5exNbig a ∨
          (nHcv C5exLabels C5exNbig a = nHcv C5exLabels C5exNbig b ∧ b < a))
        (findSeeds C5exLabels C5exNbig 1 [2, 3])) :=
  ⟨by decide, C5_seed_queue_amended C5exLabels C5exNbig 1 [2, 3] (by decide)⟩

/-! ### C1: the MRF energies of `mrf_potentials` (lines 259-282)

For a voxel with intensity `x` and a candidate label with patch statistics
`(mean, std)`:
`mrf_single = log(sqrt(2*pi)*std) + (x - mean)^2 / (2*std^2)` and
`mrf_double = beta*(2*sum(nlflat[n] == value) + sum(nlflat[n] == -1) - len(n))`,
where `n` is the direct-neighbor list and `nlflat` the current working
labels.  The scan over `patch_stats` keys keeps the first strictly
smaller total energy (`selectLabel` above).
-/

noncomputable def mrfSingle (x mean std : ℝ) : ℝ :=
  Real.log (Real.sqrt (2 * Real.pi) * std) + (x - mean) ^ 2 / (2 * std ^ 2)

noncomputable def mrfDouble (β : ℝ) (nbrLabels : List ℤ) (v : ℤ) : ℝ :=
  β * (2 * (nbrLabels.count v : ℝ) + (nbrLabels.count (-1) : ℝ) - (nbrLabels.length : ℝ))

noncomputable def mrfEnergy (β x : ℝ) (nbrLabels : List ℤ) (s : ℤ × ℝ × ℝ) : ℝ :=
  mrfSingle x s.2.1 s.2.2 + mrfDouble β nbrLabels s.1

noncomputable def mrfVote (β x : ℝ) (nbrLabels : List ℤ) (stats : List (ℤ × ℝ × ℝ)) :
    Option ℤ :=
  (selectLabel (mrfEnergy β x nbrLabels) stats).map Prod.fst

/-- C1.  For every visited voxel the chosen vote is the label of a
`patch_stats` entry whose total energy
`log(sqrt(2*pi)*std) + (x-mean)^2/(2*std^2) + beta*(2*#[neighbors = k] +
#[neighbors = -1] - #neighbors)` is minimal over all entries, and, among
entries of equal minimal energy, the one encountered first in
`patch_stats` enumeration order (all entries strictly before it have
strictly larger energy). -/
theorem C1_mrf_vote_minimum (β x : ℝ) (nbrLabels : List ℤ) (stats : List (ℤ × ℝ × ℝ))
    (h : stats ≠ []) :
    ∃ s l1 l2, stats = l1 ++ s :: l2 ∧ mrfVote β x nbrLabels stats = some s.1 ∧
      (∀ t ∈ stats, mrfEnergy β x nbrLabels s ≤ mrfEnergy β x nbrLabels t) ∧
      (∀ t ∈ l1, mrfEnergy β x nbrLabels s < mrfEnergy β x nbrLabels t) := by
  obtain ⟨a, l1, l2, hdec, hsel, hmin, hstrict⟩ :=
    selectLabel_spec (mrfEnergy β x nbrLabels) stats h
  refine ⟨a, l1, l2, hdec, ?_, hmin, hstrict⟩
  rw [mrfVote, hsel, Option.map_some']

theorem C1_mrf_vote_minimum_witness :
    ([((1 : ℤ), (0 : ℝ), (1 : ℝ))] ≠ []) ∧
    (∃ s l1 l2, ([((1 : ℤ), (0 : ℝ), (1 : ℝ))] : List (ℤ × ℝ × ℝ)) = l1 ++ s :: l2 ∧
      mrfVote 0 0 [] [((1 : ℤ), (0 : ℝ), (1 : ℝ))] = some s.1 ∧
      (∀ t ∈ ([((1 : ℤ), (0 : ℝ), (1 : ℝ))] : List (ℤ × ℝ × ℝ)),
        mrfEnergy 0 0 [] s ≤ mrfEnergy 0 0 [] t) ∧
      (∀ t ∈ l1, mrfEnergy 0 0 [] s < mrfEnergy 0 0 [] t)) :=
  ⟨List.cons_ne_nil _ _,
    C1_mrf_vote_minimum 0 0 [] [((1 : ℤ), (0 : ℝ), (1 : ℝ))] (List.cons_ne_nil _ _)⟩

/-! ### PatchBuilder (`get_patch`, lines 189-214) and the relabeling loop

`still_lcv_patch` (line 194) masks the patch by the *working* labels;
`lcvp` (line 199) masks it by the *original* confidence labels.
`patch_stats` (lines 202-207) keeps, for every label value with at least
two samples among patch voxels holding it originally, the mean and the
(population) standard deviation of their intensities.
-/

def stillLcvPatch (newLabels : ℕ → ℤ) (patch : List ℕ) : List ℕ :=
  patch.filter (fun p => decide (newLabels p = -1))

def lcvInPatch (labels : ℕ → ℤ) (patch : List ℕ) : List ℕ :=
  patch.filter (fun p => decide (labels p = -1))

def patchPoints (labels : ℕ → ℤ) (intensity : ℕ → ℚ) (v : ℤ) (patch : List ℕ) : List ℚ :=
  (patch.filter (fun p => decide (labels p = v))).map intensity

noncomputable def npMean (l : List ℚ) : ℝ := ((l.sum / l.length : ℚ) : ℝ)

noncomputable def npStd (l : List ℚ) : ℝ :=
  Real.sqrt (((l.map (fun q => (q - l.sum / l.length) ^ 2)).sum / l.length : ℚ) : ℝ)

noncomputable def patchStats (labels : ℕ → ℤ) (intensity : ℕ → ℚ) (values : List ℤ)
    (patch : List ℕ) : List (ℤ × ℝ × ℝ) :=
  (values.filter (fun v => decide (1 < (patchPoints labels intensity v patch).length))).map
    (fun v => (v, npMean (patchPoints labels intensity v patch),
      npStd (patchPoints labels intensity v patch)))

structure WalkState where
  patches : List (List ℕ)
  seeds : List ℕ
  newLabels : ℕ → ℤ
  labelCount : ℕ → List ℕ

def getPatch (st : WalkState) : WalkState × Bool :=
  if stillLcvPatch st.newLabels (st.patches.headD []) ≠ [] then
    ({ st with patches := st.patches.tail }, true)
  else
    ({ st with patches := st.patches.tail, seeds := st.seeds.tail }, false)

noncomputable def mrfPotentials (values : List ℤ) (β : ℝ) (intensity : ℕ → ℚ)
    (nbrs : ℕ → List ℕ) (stats : List (ℤ × ℝ × ℝ)) (seq : List ℕ) (st : WalkState) :
    WalkState :=
  seq.foldl
    (fun s p =>
      match mrfVote β ((intensity p : ℚ) : ℝ) ((nbrs p).map s.newLabels) stats with
      | none => s
      | some v =>
        { s with
          labelCount := Function.update s.labelCount p (tallyUpdate values (s.labelCount p) v),
          newLabels := Function.update s.newLabels p
            (workingLabel values (tallyUpdate values (s.labelCount p) v)) })
    st

/-! ### MSTSequencer (`get_mst_sequence`, lines 216-257)

The weight matrix (lines 224-233) is filled for `wx <= wy` only: a pair of
direct neighbors gets the absolute intensity difference, any other pair
(including the diagonal, since a voxel is removed from its own neighbor
list) gets `100 * ||coord difference||`; the lower triangle stays `0`.

`csgraph.minimum_spanning_tree` receives this matrix in sparse form, where
a zero entry is *no edge* (scipy's documented dense-graph convention), and
returns a minimum spanning forest of the nonzero-weight graph; it is
embedded as Kruskal's algorithm over the nonzero entries in ascending
weight order.  `np.argwhere(mst)` enumerates the returned tree's edges in
row-major order (`mstEdges` applied to the tree's weights), and the
`while edges:` walk (lines 241-253) repeatedly appends the endpoint of the
cheapest frontier edge, scanning edges in order and keeping the first
strict minimum; when no remaining edge touches the visited set the Python
code faults (stale `nextedge`), modelled by returning the sequence built
so far.
-/

def sqNorm3 (a b : ℤ × ℤ × ℤ) : ℤ :=
  (a.1 - b.1) ^ 2 + (a.2.1 - b.2.1) ^ 2 + (a.2.2 - b.2.2) ^ 2

noncomputable def mstWeight (intensity : ℕ → ℚ) (coords : ℕ → ℤ × ℤ × ℤ)
    (nbrs : ℕ → List ℕ) (lcvp : List ℕ) (wx wy : ℕ) : ℝ :=
  if wx ≤ wy then
    if lcvp.getD wx 0 ∈ nbrs (lcvp.getD wy 0) then
      ((|intensity (lcvp.getD wx 0) - intensity (lcvp.getD wy 0)| : ℚ) : ℝ)
    else
      100 * Real.sqrt ((sqNorm3 (coords (lcvp.getD wx 0)) (coords (lcvp.getD wy 0)) : ℤ) : ℝ)
  else 0

noncomputable def mstEdges (w : ℕ → ℕ → ℝ) (n : ℕ) : List (ℕ × ℕ) :=
  ((List.range n).flatMap (fun i => (List.range n).map (fun j => (i, j)))).filter
    (fun e => decide (w e.1 e.2 ≠ 0))

def kruskalGo (comp : ℕ → ℕ) : List (ℕ × ℕ) → List (ℕ × ℕ)
  | [] => []
  | e :: rest =>
    if comp e.1 = comp e.2 then kruskalGo comp rest
    else e :: kruskalGo (fun x => if comp x = comp e.2 then comp e.1 else comp x) rest

noncomputable def mstOf (w : ℕ → ℕ → ℝ) (n : ℕ) : List (ℕ × ℕ) :=
  kruskalGo (fun x => x)
    (List.insertionSort (fun a b => w a.1 a.2 ≤ w b.1 b.2) (mstEdges w n))

noncomputable def findNextEdge (w : ℕ → ℕ → ℝ) (seq : List ℕ) (edges : List (ℕ × ℕ)) :
    Option (ℕ × ℕ) :=
  edges.foldl
    (fun best e =>
      if e.1 ∈ seq ∨ e.2 ∈ seq then
        match best with
        | none => some e
        | some b => if w e.1 e.2 < w b.1 b.2 then some e else some b
      else best)
    none

noncomputable def mstWalk (w : ℕ → ℕ → ℝ) : ℕ → List (ℕ × ℕ) → List ℕ → List ℕ
  | 0, _, seq => seq
  | fuel + 1, edges, seq =>
    match findNextEdge w seq edges with
    | none => seq
    | some e => mstWalk w fuel (edges.erase e) (seq ++ [if e.1 ∈ seq then e.2 else e.1])

noncomputable def getMstSequence (intensity : ℕ → ℚ) (coords : ℕ → ℤ × ℤ × ℤ)
    (nbrs : ℕ → List ℕ) (lcvp : List ℕ) (seed : ℕ) : List ℕ :=
  (mstWalk (mstWeight intensity coords nbrs lcvp)
    (mstOf (mstWeight intensity coords nbrs lcvp) lcvp.length).length
    (mstOf (mstWeight intensity coords nbrs lcvp) lcvp.length)
    [lcvp.indexOf seed]).map (fun i => lcvp.getD i 0)

/-- One iteration of the `while self.seeds:` loop of `run` (lines 114-119):
`get_patch`, then, if the patch still holds an unresolved voxel,
`get_mst_sequence` (which pops the seed, line 257) followed by
`mrf_potentials`. -/
noncomputable def runStep (labels : ℕ → ℤ) (values : List ℤ) (β : ℝ) (intensity : ℕ → ℚ)
    (coords : ℕ → ℤ × ℤ × ℤ) (nbrs : ℕ → List ℕ) (st : WalkState) : WalkState :=
  if (getPatch st).2 then
    mrfPotentials values β intensity nbrs
      (patchStats labels intensity values (st.patches.headD []))
      (getMstSequence intensity coords nbrs (lcvInPatch labels (st.patches.headD []))
        ((getPatch st).1.seeds.headD 0))
      { (getPatch st).1 with seeds := (getPatch st).1.seeds.tail }
  else (getPatch st).1

/-- C8.  A patch whose still-low-confidence subset is empty at build time
triggers no walk: the patch and its seed are popped from their queues and
the working labels and per-voxel tallies are left untouched. -/
theorem C8_empty_patch_no_relabel (labels : ℕ → ℤ) (values : List ℤ) (β : ℝ)
    (intensity : ℕ → ℚ) (coords : ℕ → ℤ × ℤ × ℤ) (nbrs : ℕ → List ℕ) (st : WalkState)
    (h : stillLcvPatch st.newLabels (st.patches.headD []) = []) :
    runStep labels values β intensity coords nbrs st =
      { st with patches := st.patches.tail, seeds := st.seeds.tail } := by
  have hgp : getPatch st = ({ st with patches := st.patches.tail, seeds := st.seeds.tail }, false) := by
    unfold getPatch
    rw [if_neg (fun hne => hne h)]
  unfold runStep
  rw [hgp]
  simp

def C8exState : WalkState where
  patches := [[0]]
  seeds := [7]
  newLabels := fun _ => 2
  labelCount := fun _ => []

theorem C8_empty_patch_no_relabel_witness :
    stillLcvPatch C8exState.newLabels (C8exState.patches.headD []) = [] ∧
    runStep (fun _ => (2 : ℤ)) [1, 2] 0 (fun _ => 50) (fun p => (0, 0, (p : ℤ)))
        (fun _ => []) C8exState =
      { C8exState with patches := C8exState.patches.tail, seeds := C8exState.seeds.tail } :=
  ⟨by decide,
    C8_empty_patch_no_relabel (fun _ => (2 : ℤ)) [1, 2] 0 (fun _ => 50)
      (fun p => (0, 0, (p : ℤ))) (fun _ => []) C8exState (by decide)⟩

/-! ### C10: a walk with empty `patch_stats`

Pipeline instance, volume of shape `1 x 1 x 3` (voxels `0, 1, 2`),
candidate label volumes `[1, 2, 2]` and `[2, 1, 2]` (label set `{1, 2}`
in both), default thresholds `[0.2, 0.2]`, `mixing_ratio = 0`,
`patch_length = 0`.  Voxels `0` and `1` split their votes and become
low-confidence, voxel `2` is unanimous: confidence labels
`[-1, -1, 2]`.  Voxel `1` is the only seed, and its radius-`0` patch is
`[1]` alone, whose only voxel holds the sentinel, so no label value has
two resolved samples and `patch_stats` stays empty while the walk is
performed.
-/

def C10labels : ℕ → ℤ := fun p => if p = 2 then 2 else -1

def C10nbig : ℕ → List ℕ := fun p =>
  if p = 0 then [1] else if p = 1 then [0, 2] else if p = 2 then [1] else []

/-- C10 is false of the code: the walk decision (`still_lcv_patch`
nonempty) does not ensure a nonempty `patch_stats`.  On the concrete
pipeline instance above the classification yields `[-1, -1, 2]`, voxel `1`
is a seed, its patch `[1]` triggers a walk, yet `patch_stats` is empty, and
the minimum-energy scan over an empty map selects nothing (in Python,
`new_label` is unbound and `mrf_potentials` raises `NameError`). -/
theorem C10_walk_with_empty_patch_stats :
    (([[1, 1], [1, 1], [0, 2]] : List (List ℕ)).map
        (fun votes => classifyVoxel [1, 2] [1/5, 1/5] 2 votes) = [-1, -1, 2]) ∧
    findSeeds C10labels C10nbig 0 [0, 1] = [1] ∧
    stillLcvPatch C10labels [1] ≠ [] ∧
    patchStats C10labels (fun _ => 50) [1, 2] [1] = [] ∧
    (∀ (β x : ℝ) (nbr : List ℤ), mrfVote β x nbr [] = none) := by
  refine ⟨by with_unfolding_all decide, by decide, by decide, rfl, fun β x nbr => rfl⟩

/-! ### C3: the MST sequence can omit still-low-confidence voxels

Pipeline instance, volume of shape `1 x 1 x 5` (voxels `0..4`), candidate
label volumes `[2, 2, 1, 1, 2]` and `[2, 2, 2, 2, 1]` (label set `{1, 2}`
in both), constant intensity `50`, `mixing_ratio = 0`, `patch_length = 2`:
confidence labels are `[2, 2, -1, -1, -1]`, voxel `2` is the only seed,
its patch is all five voxels and `lcvp = [2, 3, 4]`.  The weight matrix
over `lcvp` has `w[0][1] = w[1][2] = |50 - 50| = 0` (adjacent pairs) and
`w[0][2] = 100 * ||(0,0,2) - (0,0,4)|| = 200`; since zero entries are
non-edges in scipy's sparse form, the spanning forest found is the single
edge `(0, 2)` and the walk visits voxels `2` and `4` only, omitting the
still-low-confidence voxel `3`.
-/

def C3nbrs : ℕ → List ℕ := fun p =>
  if p = 0 then [1] else if p = 1 then [0, 2] else if p = 2 then [1, 3]
  else if p = 3 then [2, 4] else if p = 4 then [3] else []

def C3coords : ℕ → ℤ × ℤ × ℤ := fun p => (0, 0, (p : ℤ))

theorem C3w00 : mstWeight (fun _ => 50) C3coords C3nbrs [2, 3, 4] 0 0 = 0 := by
  simp [mstWeight, C3nbrs, C3coords, sqNorm3]

theorem C3w01 : mstWeight (fun _ => 50) C3coords C3nbrs [2, 3, 4] 0 1 = 0 := by
  simp [mstWeight, C3nbrs, C3coords, sqNorm3]

theorem C3w02 : mstWeight (fun _ => 50) C3coords C3nbrs [2, 3, 4] 0 2 = 200 := by
  have hstep : mstWeight (fun _ => 50) C3coords C3nbrs [2, 3, 4] 0 2 =
      100 * Real.sqrt ((sqNorm3 (C3coords 2) (C3coords 4) : ℤ) : ℝ) := by
    simp [mstWeight, C3nbrs]
  have hs : ((sqNorm3 (C3coords 2) (C3coords 4) : ℤ) : ℝ) = 4 := by
    norm_num [C3coords, sqNorm3]
  rw [hstep, hs, show (4 : ℝ) = 2 ^ 2 by norm_num,
    Real.sqrt_sq (by norm_num : (0 : ℝ) ≤ 2)]
  norm_num

theorem C3w10 : mstWeight (fun _ => 50) C3coords C3nbrs [2, 3, 4] 1 0 = 0 := by
  simp [mstWeight]

theorem C3w11 : mstWeight (fun _ => 50) C3coords C3nbrs [2, 3, 4] 1 1 = 0 := by
  simp [mstWeight, C3nbrs, C3coords, sqNorm3]

theorem C3w12 : mstWeight (fun _ => 50) C3coords C3nbrs [2, 3, 4] 1 2 = 0 := by
  simp [mstWeight, C3nbrs, C3coords, sqNorm3]

theorem C3w20 : mstWeight (fun _ => 50) C3coords C3nbrs [2, 3, 4] 2 0 = 0 := by
  simp [mstWeight]

theorem C3w21 : mstWeight (fun _ => 50) C3coords C3nbrs [2, 3, 4] 2 1 = 0 := by
  simp [mstWeight]

theorem C3w22 : mstWeight (fun _ => 50) C3coords C3nbrs [2, 3, 4] 2 2 = 0 := by
  simp [mstWeight, C3nbrs, C3coords, sqNorm3]

theorem C3_edges :
    mstEdges (mstWeight (fun _ => 50) C3coords C3nbrs [2, 3, 4]) 3 = [(0, 2)] := by
  unfold mstEdges
  rw [show ((List.range 3).flatMap fun i => (List.range 3).map fun j => (i, j)) =
      [(0, 0), (0, 1), (0, 2), (1, 0), (1, 1), (1, 2), (2, 0), (2, 1), (2, 2)] from rfl]
  rw [List.filter_cons_of_neg (by simp [C3w00]),
    List.filter_cons_of_neg (by simp [C3w01]),
    List.filter_cons_of_pos (by simp only [decide_eq_true_eq, C3w02]; norm_num),
    List.filter_cons_of_neg (by simp [C3w10]),
    List.filter_cons_of_neg (by simp [C3w11]),
    List.filter_cons_of_neg (by simp [C3w12]),
    List.filter_cons_of_neg (by simp [C3w20]),
    List.filter_cons_of_neg (by simp [C3w21]),
    List.filter_cons_of_neg (by simp [C3w22]),
    List.filter_nil]

theorem C3_tree :
    mstOf (mstWeight (fun _ => 50) C3coords C3nbrs [2, 3, 4]) 3 = [(0, 2)] := by
  unfold mstOf
  rw [C3_edges]
  rfl

/-- C3 is false of the code (a slip relative to its own intent): on the
concrete patch above, `get_mst_sequence` returns `[2, 4]`, which omits the
still-low-confidence patch voxel `3` because the zero-weight edges between
equal-intensity direct neighbors vanish in scipy's sparse matrix and the
spanning forest never connects voxel `3` to the seed. -/
theorem C3_mst_sequence_omits_voxel :
    getMstSequence (fun _ => 50) C3coords C3nbrs [2, 3, 4] 2 = [2, 4] ∧
    (3 ∈ ([2, 3, 4] : List ℕ)) ∧ 3 ∉ ([2, 4] : List ℕ) := by
  refine ⟨?_, by decide, by decide⟩
  unfold getMstSequence
  rw [show ([2, 3, 4] : List ℕ).length = 3 from rfl, C3_tree]
  rfl

/-! ### C9: eager validation in `__init__` (lines 31-80)

The constructor raises, in order: `positive_int` on `mixing_ratio` and
`patch_length` (negative values), `restricted_float` on every threshold
(outside `[0, 1]`), the per-image `np.unique` comparison against the first
image's label values (lines 69-70), and the threshold-count handling
(lines 75-80): a count mismatch raises when `same_threshold` is false,
otherwise the list is grown by `thresholds.append(thresholds[-1])` until it
matches — which is an `IndexError` when the list is empty.
`npUnique` is `np.unique`: sorted distinct values.
-/

def npUnique (l : List ℤ) : List ℤ := (List.insertionSort (· ≤ ·) l).dedup

def exceptOk {ε α : Type} : Except ε α → Bool
  | .ok _ => true
  | .error _ => false

def padFill : ℕ → List ℚ → Except String (List ℚ)
  | 0, ts => .ok ts
  | g + 1, ts =>
    match ts.getLast? with
    | none => .error "IndexError: list index out of range"
    | some t => padFill g (ts ++ [t])

def padThresholds (n : ℕ) (ts : List ℚ) : Except String (List ℚ) :=
  padFill (n - ts.length) ts

def validateInit (mixing patch : ℤ) (thresholds : List ℚ) (same : Bool)
    (first : List ℤ) (rest : List (List ℤ)) : Except String (List ℚ) :=
  if mixing < 0 then .error "mixing_ratio is not a positive int"
  else if patch < 0 then .error "patch_length is not a positive int"
  else if thresholds.any (fun t => decide (t < 0 ∨ 1 < t)) then
    .error "threshold not in range 0 to 1"
  else if rest.any (fun arr => decide (npUnique arr ≠ npUnique first)) then
    .error "labels not the same in each image"
  else if (npUnique first).length ≠ thresholds.length then
    if !same then .error "number of labels does not match number of thresholds"
    else padThresholds (npUnique first).length thresholds
  else .ok thresholds

/-- What the claim lists as the invalid inputs: negative `mixing_ratio` or
`patch_length`, a threshold outside `[0, 1]`, a label-value-set mismatch,
or a threshold-count mismatch while `same_threshold` is false. -/
def claimInvalidC9 (mixing patch : ℤ) (thresholds : List ℚ) (same : Bool)
    (first : List ℤ) (rest : List (List ℤ)) : Prop :=
  mixing < 0 ∨ patch < 0 ∨ (∃ t ∈ thresholds, t < 0 ∨ 1 < t) ∨
    (∃ arr ∈ rest, npUnique arr ≠ npUnique first) ∨
    ((npUnique first).length ≠ thresholds.length ∧ same = false)

/-- C9 counterexample.  An empty threshold list with `same_threshold` true
and two distinct labels is not invalid according to the claim (the claim
says the list is padded by repeating its last value), yet construction
fails: `thresholds[-1]` on an empty list is an `IndexError`. -/
theorem C9_empty_thresholds_counterexample :
    exceptOk (validateInit 10 5 [] true [0, 1] []) = false ∧
    ¬ claimInvalidC9 10 5 [] true [0, 1] [] := by
  constructor
  · decide
  · unfold claimInvalidC9
    decide

theorem padFill_ok_iff (g : ℕ) : ∀ ts : List ℚ,
    exceptOk (padFill g ts) = true ↔ (g = 0 ∨ ts ≠ []) := by
  induction g with
  | zero => intro ts; simp [padFill, exceptOk]
  | succ g ih =>
    intro ts
    match hts : ts with
    | [] => simp [padFill, exceptOk]
    | t0 :: ts' =>
      have hlast : (t0 :: ts').getLast? = some ((t0 :: ts').getLast (by simp)) :=
        List.getLast?_eq_getLast _ _
      rw [padFill, hlast]
      rw [ih]
      constructor
      · intro _; exact Or.inr (by simp)
      · intro _; exact Or.inr (by simp)

/-- C9 (amended).  Construction fails exactly when the claim's list of
invalid inputs holds, *or* when the threshold list is empty while shorter
than the label list (the padding loop cannot repeat the last value of an
empty list), regardless of `same_threshold`. -/
theorem C9_validation_amended (mixing patch : ℤ) (thresholds : List ℚ) (same : Bool)
    (first : List ℤ) (rest : List (List ℤ)) :
    exceptOk (validateInit mixing patch thresholds same first rest) = true ↔
      ¬ (mixing < 0 ∨ patch < 0 ∨ (∃ t ∈ thresholds, t < 0 ∨ 1 < t) ∨
        (∃ arr ∈ rest, npUnique arr ≠ npUnique first) ∨
        ((npUnique first).length ≠ thresholds.length ∧
          (same = false ∨ thresholds = []))) := by
  unfold validateInit
  by_cases h1 : mixing < 0
  · simp [h1, exceptOk]
  by_cases h2 : patch < 0
  · simp [h1, h2, exceptOk]
  by_cases h3 : ∃ t ∈ thresholds, t < 0 ∨ 1 < t
  · have h3' : thresholds.any (fun t => decide (t < 0 ∨ 1 < t)) = true := by
      rw [List.any_eq_true]
      obtain ⟨t, ht, hp⟩ := h3
      exact ⟨t, ht, decide_eq_true hp⟩
    simp [h1, h2, h3', exceptOk, h3]
  have h3' : thresholds.any (fun t => decide (t < 0 ∨ 1 < t)) = false := by
    rw [List.any_eq_false]
    intro t ht
    simp only [decide_eq_true_eq]
    exact fun hp => h3 ⟨t, ht, hp⟩
  by_cases h4 : ∃ arr ∈ rest, npUnique arr ≠ npUnique first
  · have h4' : rest.any (fun arr => decide (npUnique arr ≠ npUnique first)) = true := by
      rw [List.any_eq_true]
      obtain ⟨a, ha, hp⟩ := h4
      exact ⟨a, ha, decide_eq_true hp⟩
    simp [h1, h2, h3', h4', exceptOk, h3, h4]
  have h4' : rest.any (fun arr => decide (npUnique arr ≠ npUnique first)) = false := by
    rw [List.any_eq_false]
    intro a ha
    simp only [decide_eq_true_eq]
    exact fun hp => h4 ⟨a, ha, hp⟩
  rw [if_neg h1, if_neg h2,
    if_neg (by rw [h3']; exact Bool.false_ne_true),
    if_neg (by rw [h4']; exact Bool.false_ne_true)]
  by_cases h5 : (npUnique first).length = thresholds.length
  · rw [if_neg (by simpa using h5)]
    simp [exceptOk, h1, h2, h3, h4, h5]
  · rw [if_pos h5]
    match same with
    | false =>
      simp [exceptOk, h1, h2, h3, h4, h5]
    | true =>
      rw [if_neg (by simp)]
      rw [padThresholds, padFill_ok_iff]
      have hlhs : ((npUnique first).length - thresholds.length = 0 ∨ thresholds ≠ []) ↔
          thresholds ≠ [] := by
        constructor
        · rintro (h0 | hne)
          · intro hts
            subst hts
            simp only [List.length_nil, Nat.sub_zero] at h0
            exact h5 (by simp [h0])
          · exact hne
        · exact Or.inr
      rw [hlhs]
      simp [h1, h2, h3, h4, h5]

end AWoLMRF
